import Mathlib

/-!
Verification of the SBOM visualizer's dependency-graph merge engine,
validation rule, layout engine and history log, shallowly embedded from
`src/sbom-visualizer.js`.

A JavaScript `Map` is embedded as an association list that preserves
insertion order: `set` on a present key updates it in place, `set` on an
absent key appends it at the end, and lookup finds the first occurrence.
-/

namespace SbomViz

/-- Association-list lookup, mirroring `Map.prototype.get`. -/
def getA {α β : Type} [DecidableEq α] : List (α × β) → α → Option β
  | [], _ => none
  | p :: rest, k => if p.1 = k then some p.2 else getA rest k

/-- Association-list update, mirroring `Map.prototype.set`: an existing key
is updated in place, a new key is appended at the end. -/
def setA {α β : Type} [DecidableEq α] : List (α × β) → α → β → List (α × β)
  | [], k, v => [(k, v)]
  | p :: rest, k, v => if p.1 = k then (k, v) :: rest else p :: setA rest k v

/-- One entry of an SBOM document's `dependencies` array. -/
structure Dep where
  ref : String
  dependsOn : List String
deriving DecidableEq, Repr

/-- The dependency graph: node identifier to its direct dependencies,
in key insertion order (`this.dependencyGraph`). -/
abbrev Graph := List (String × List String)

/-- The part of an SBOM document the core engine reads. -/
structure Sbom where
  dependencies : List Dep
  forceMode : Bool
deriving DecidableEq, Repr

/-- Keys of the graph, in insertion order. -/
def keysOf (g : Graph) : List String := g.map (·.1)

/-- Embeds `dep.dependsOn.forEach(d => if (!list.includes(d)) list.push(d))`:
append each id of `ids` to `l` unless already present. -/
def addUnique (l : List String) (ids : List String) : List String :=
  ids.foldl (fun acc i => if i ∈ acc then acc else acc ++ [i]) l

/-- Embeds `updateDependencyGraph` from `src/sbom-visualizer.js` (lines 663-691):
per dependency entry, create the key with `[]` if absent; in force mode
replace its list with a copy of `dependsOn`; otherwise push each id of
`dependsOn` that is not already present. -/
def updateDependencyGraph (g : Graph) (sbom : Sbom) : Graph :=
  let isForceMode := sbom.forceMode = true
  sbom.dependencies.foldl
    (fun acc dep =>
      let acc1 := if (getA acc dep.ref).isSome then acc else setA acc dep.ref []
      if isForceMode then
        setA acc1 dep.ref dep.dependsOn
      else
        setA acc1 dep.ref (addUnique ((getA acc1 dep.ref).getD []) dep.dependsOn))
    g

/-- Result of the non-force validation check. -/
structure ValidationResult where
  valid : Bool
  message : Option String
deriving DecidableEq, Repr

/-- The rejection message of `validateSbomForNonForceMode`, naming the
offending node. -/
def invalidMsgFor (r : String) : String :=
  "Cannot upload without Force Mode: This SBOM would modify existing dependencies for node \""
    ++ r ++ "\". Enable Force Mode to allow this modification."

/-- The `wouldModify` test of `validateSbomForNonForceMode`: some new
dependency is absent from the existing list, or the lengths differ. -/
def wouldModify (existingDeps newDeps : List String) : Bool :=
  newDeps.any (fun d => !(existingDeps.contains d)) || existingDeps.length != newDeps.length

/-- The `for (const dep of sbom.dependencies)` loop of
`validateSbomForNonForceMode`, returning at the first offending entry. -/
def validateLoop (g : Graph) : List Dep → ValidationResult
  | [] => ⟨true, none⟩
  | dep :: rest =>
    match getA g dep.ref with
    | some existingDeps =>
      if wouldModify existingDeps dep.dependsOn then
        ⟨false, some (invalidMsgFor dep.ref)⟩
      else validateLoop g rest
    | none => validateLoop g rest

/-- Embeds `validateSbomForNonForceMode` from `src/sbom-visualizer.js`
(lines 596-631): an empty graph admits anything; otherwise scan the
document's dependencies for an entry that would modify an existing node. -/
def validateSbomForNonForceMode (g : Graph) (sbom : Sbom) : ValidationResult :=
  if g.length = 0 then ⟨true, none⟩
  else validateLoop g sbom.dependencies

/-- One saved history state: a copy of the dependency graph plus the number
of SBOMs uploaded so far (the `timestamp` field is presentation-only). -/
structure HEntry where
  dependencyGraph : Graph
  sbomCount : Nat
deriving DecidableEq, Repr

/-- The visualizer state touched by the core engine: the live graph, the
count of uploaded SBOMs, and the history-navigation fields. Positions are
modelled from the initialized state onward (the constructor's transient
`-1` exists only before `init` pushes the first entry), so
`historyPosition` is a `Nat`. -/
structure VisState where
  dependencyGraph : Graph
  uploadedSboms : Nat
  historyStates : List HEntry
  historyPosition : Nat
  viewingHistory : Bool
  savedCurrentGraph : Option Graph
deriving DecidableEq, Repr

/-- Embeds `saveHistoryState` (lines 325-361): copy the current graph into a new
entry; if viewing history, restore the stored current graph, clear the
viewing flag and truncate the log after the cursor; then append the entry
and move the cursor to the new tip. -/
def saveHistoryState (s : VisState) : VisState :=
  let state : HEntry := ⟨s.dependencyGraph, s.uploadedSboms⟩
  let s1 :=
    if s.viewingHistory then
      { s with
        dependencyGraph := s.savedCurrentGraph.getD s.dependencyGraph
        savedCurrentGraph := none
        viewingHistory := false
        historyStates := s.historyStates.take (s.historyPosition + 1) }
    else s
  let states := s1.historyStates ++ [state]
  { s1 with historyStates := states, historyPosition := states.length - 1 }

/-- Embeds `updateHistoryView` (lines 203-289, state-relevant part): display the
entry at the cursor, stashing the previously displayed graph in
`_currentGraph` while viewing history and clearing the stash otherwise. -/
def updateHistoryView (s : VisState) : VisState :=
  if s.historyPosition < s.historyStates.length then
    let historicalState := s.historyStates.getD s.historyPosition ⟨[], 0⟩
    let currentGraph := s.dependencyGraph
    let s1 := { s with dependencyGraph := historicalState.dependencyGraph }
    if s.viewingHistory then { s1 with savedCurrentGraph := some currentGraph }
    else { s1 with savedCurrentGraph := none }
  else s

/-- Embeds `navigateHistoryBackward` (lines 178-186): no-op at position 0, else
move the cursor left, set the viewing flag and refresh the view. -/
def navigateHistoryBackward (s : VisState) : VisState :=
  if s.historyPosition = 0 then s
  else
    updateHistoryView
      { s with historyPosition := s.historyPosition - 1, viewingHistory := true }

/-- Embeds `navigateHistoryForward` (lines 188-201): no-op at the tip, else move
the cursor right, clearing the viewing flag on reaching the tip, and
refresh the view. -/
def navigateHistoryForward (s : VisState) : VisState :=
  if s.historyStates.length - 1 ≤ s.historyPosition then s
  else
    let p := s.historyPosition + 1
    let viewing := if p = s.historyStates.length - 1 then false else s.viewingHistory
    updateHistoryView { s with historyPosition := p, viewingHistory := viewing }

/-- The successful-merge path shared by `nextStage` and
`processSelectedSbom`: record the upload, merge the document into the
graph, then snapshot. -/
def uploadSbom (s : VisState) (sbom : Sbom) : VisState :=
  saveHistoryState
    { s with
      uploadedSboms := s.uploadedSboms + 1
      dependencyGraph := updateDependencyGraph s.dependencyGraph sbom }

/-- Embeds `processSelectedSbom` (lines 503-560, core path): stamp the document
with the popup's force-mode flag; in non-force mode run validation and, on
rejection, surface the result and leave the state untouched; otherwise
merge and snapshot. -/
def processSelectedSbom (s : VisState) (sbom : Sbom) (isForceMode : Bool) :
    VisState × ValidationResult :=
  let sbomData := { sbom with forceMode := isForceMode }
  if isForceMode = false then
    let validationResult := validateSbomForNonForceMode s.dependencyGraph sbomData
    if validationResult.valid = false then (s, validationResult)
    else (uploadSbom s sbomData, ⟨true, none⟩)
  else (uploadSbom s sbomData, ⟨true, none⟩)

/-- The state right after `init`: empty graph, one empty history entry,
cursor at 0. -/
def initState : VisState := ⟨[], 0, [⟨[], 0⟩], 0, false, none⟩

/-- All dependency values of the graph, concatenated: the `hasIncoming`
universe of `calculateNodeLevels`. -/
def valuesJoin (g : Graph) : List String := (g.map (·.2)).flatten

/-- The roots of `calculateNodeLevels` (lines 934-939): keys that never
appear as a dependency value, in key order. -/
def rootsOf (g : Graph) : List String :=
  (keysOf g).filter (fun k => !(valuesJoin g).contains k)

theorem getA_mem {α β : Type} [DecidableEq α] :
    ∀ {g : List (α × β)} {k : α} {v : β}, getA g k = some v → (k, v) ∈ g := by
  intro g
  induction g with
  | nil => intro k v h; simp [getA] at h
  | cons p rest ih =>
    intro k v h
    rw [getA] at h
    by_cases hk : p.1 = k
    · simp [hk] at h
      subst hk
      subst h
      exact List.mem_cons_self _ _
    · simp [hk] at h
      exact List.mem_cons_of_mem _ (ih h)

theorem getA_eq_none {α β : Type} [DecidableEq α] :
    ∀ {g : List (α × β)} {k : α}, k ∉ g.map (·.1) → getA g k = none := by
  intro g
  induction g with
  | nil => intro k _; rfl
  | cons p rest ih =>
    intro k h
    rw [getA]
    simp only [List.map_cons, List.mem_cons] at h
    push_neg at h
    simp [Ne.symm h.1]
    exact ih h.2

theorem length_le_valuesJoin {g : Graph} {k : String} {ds : List String}
    (h : getA g k = some ds) : ds.length ≤ (valuesJoin g).length := by
  have hm : ds ∈ g.map (·.2) := List.mem_map_of_mem _ (getA_mem h)
  have : ds.length ∈ (g.map (·.2)).map List.length := List.mem_map_of_mem _ hm
  calc ds.length ≤ ((g.map (·.2)).map List.length).sum :=
        List.single_le_sum (fun _ _ => Nat.zero_le _) _ this
    _ = (valuesJoin g).length := (List.length_flatten _).symm

/-- The `while (queue.length > 0)` BFS loop of `calculateNodeLevels`
(lines 941-956): pop the front; skip it if visited; otherwise record its
level, then enqueue its not-yet-visited dependencies at `level + 1`. -/
def bfsLoop (g : Graph) :
    List (String × Nat) → List String → List (String × Nat) → List (String × Nat)
  | [], _, levels => levels
  | (n, l) :: rest, visited, levels =>
    if n ∈ visited then bfsLoop g rest visited levels
    else
      let dependencies := (getA g n).getD []
      let newItems :=
        (dependencies.filter (fun d => !(visited ++ [n]).contains d)).map
          (fun d => (d, l + 1))
      bfsLoop g (rest ++ newItems) (visited ++ [n]) (levels ++ [(n, l)])
termination_by queue visited _ =>
  ((keysOf g ++ valuesJoin g).toFinset \ visited.toFinset).card
      * ((valuesJoin g).length + 2)
    + queue.length
decreasing_by
  · simp only [List.length_cons]
    omega
  · rename_i hvis
    simp only [List.length_append, List.length_cons, List.length_map]
    by_cases hU : n ∈ (keysOf g ++ valuesJoin g).toFinset
    · have hcard :
          (((keysOf g ++ valuesJoin g).toFinset \ (visited ++ [n]).toFinset).card) + 1
            ≤ ((keysOf g ++ valuesJoin g).toFinset \ visited.toFinset).card := by
        have hsub : (keysOf g ++ valuesJoin g).toFinset \ (visited ++ [n]).toFinset
            ⊆ ((keysOf g ++ valuesJoin g).toFinset \ visited.toFinset).erase n := by
          intro x hx
          simp only [Finset.mem_sdiff, List.mem_toFinset, List.mem_append,
            List.mem_singleton, Finset.mem_erase] at hx ⊢
          push_neg at hx
          exact ⟨hx.2.2, hx.1, hx.2.1⟩
        calc ((keysOf g ++ valuesJoin g).toFinset \ (visited ++ [n]).toFinset).card + 1
            ≤ (((keysOf g ++ valuesJoin g).toFinset \ visited.toFinset).erase n).card + 1 :=
              Nat.add_le_add_right (Finset.card_le_card hsub) 1
          _ = ((keysOf g ++ valuesJoin g).toFinset \ visited.toFinset).card := by
              rw [Finset.card_erase_of_mem]
              · have hpos : 0 < ((keysOf g ++ valuesJoin g).toFinset \ visited.toFinset).card :=
                  Finset.card_pos.mpr ⟨n, Finset.mem_sdiff.mpr ⟨hU, by
                    simp only [List.mem_toFinset]; exact hvis⟩⟩
                omega
              · exact Finset.mem_sdiff.mpr ⟨hU, by simp only [List.mem_toFinset]; exact hvis⟩
      have hlen : ((getA g n).getD []).length ≤ (valuesJoin g).length := by
        cases h : getA g n with
        | none => simp
        | some ds => simpa using length_le_valuesJoin h
      have hfilt :
          (((getA g n).getD []).filter (fun d => !(visited ++ [n]).contains d)).length
            ≤ ((getA g n).getD []).length := List.length_filter_le _ _
      set c1 := ((keysOf g ++ valuesJoin g).toFinset \ (visited ++ [n]).toFinset).card
      set c0 := ((keysOf g ++ valuesJoin g).toFinset \ visited.toFinset).card
      set E := (valuesJoin g).length
      have : c1 + 1 ≤ c0 := hcard
      nlinarith [hfilt, hlen, this]
    · have hnk : n ∉ keysOf g := by
        intro hk
        exact hU (List.mem_toFinset.mpr (List.mem_append_left _ hk))
      have hg : getA g n = none := getA_eq_none (by simpa [keysOf] using hnk)
      have hcard :
          ((keysOf g ++ valuesJoin g).toFinset \ (visited ++ [n]).toFinset).card
            ≤ ((keysOf g ++ valuesJoin g).toFinset \ visited.toFinset).card := by
        apply Finset.card_le_card
        intro x hx
        simp only [Finset.mem_sdiff, List.mem_toFinset, List.mem_append,
          List.mem_singleton] at hx ⊢
        push_neg at hx
        exact ⟨hx.1, hx.2.1⟩
      simp only [hg, Option.getD_none, List.filter_nil, List.map_nil]
      simp only [List.length_append, List.length_cons, List.length_nil]
      have := Nat.mul_le_mul_right ((valuesJoin g).length + 2) hcard
      omega

/-- Embeds `calculateNodeLevels` (lines 925-965): multi-source BFS from the roots,
then default every key the BFS never reached to level 0, in key order. -/
def calculateNodeLevels (g : Graph) : List (String × Nat) :=
  let base := bfsLoop g ((rootsOf g).map (fun r => (r, 0))) [] []
  base ++ ((keysOf g).filter (fun k => !(base.map (·.1)).contains k)).map
    (fun k => (k, 0))

/-- The BFS part of `calculateNodeLevels` alone, before the level-0
defaulting pass: the levels of exactly the nodes reached from the roots. -/
def bfsLevels (g : Graph) : List (String × Nat) :=
  bfsLoop g ((rootsOf g).map (fun r => (r, 0))) [] []

/-- The `nodesByLevel` grouping of `calculateNodePositions` (lines 902-909):
group the level assignment by level, keeping node order within a level and
first-appearance order of the levels. -/
def groupByLevel (levels : List (String × Nat)) : List (Nat × List String) :=
  levels.foldl
    (fun acc p => setA acc p.2 (((getA acc p.2).getD []) ++ [p.1])) []

/-- Embeds `Math.max(...levels.values())` over the (nonnegative) levels; `0` on an
empty assignment (which `renderGraph` never passes on). -/
def maxLevelOf (levels : List (String × Nat)) : Nat :=
  (levels.map (·.2)).foldr max 0

/-- The inner `nodes.forEach((node, index) => ...)` of
`calculateNodePositions`: place the nodes of one level, evenly spaced. -/
def placeLevel (width levelHeight : ℚ) (acc : List (String × ℚ × ℚ))
    (level : Nat) (nodes : List String) : List (String × ℚ × ℚ) :=
  let y : ℚ := 50 + (level : ℚ) * levelHeight
  let spacing : ℚ := width / ((nodes.length : ℚ) + 1)
  nodes.enum.foldl (fun m p => setA m p.2 (50 + ((p.1 : ℚ) + 1) * spacing, y)) acc

/-- Embeds `calculateNodePositions` (lines 889-923), with the container size passed
in and real arithmetic embedded over `ℚ`: subtract the 100-pixel margin
budget, compute levels, group by level and assign coordinates. The `allNodes`
set the source builds on lines 895-899 is never used and is omitted. -/
def calculateNodePositions (g : Graph) (viewportW viewportH : ℚ) :
    List (String × ℚ × ℚ) :=
  let width := viewportW - 100
  let height := viewportH - 100
  let levels := calculateNodeLevels g
  let nodesByLevel := groupByLevel levels
  let maxLevel := maxLevelOf levels
  let levelHeight := height / ((maxLevel : ℚ) + 1)
  nodesByLevel.foldl (fun m p => placeLevel width levelHeight m p.1 p.2) []

/-- Keep the first occurrence of every element, dropping later repeats. -/
def dedupFS {α : Type} [DecidableEq α] : List α → List α
  | [] => []
  | a :: rest => a :: (dedupFS rest).filter (fun b => decide (b ≠ a))

/-- The `dependsOn` list of the last document entry for `k`, if any: the
list force mode leaves `k` with. -/
def lastForced : List Dep → String → Option (List String)
  | [], _ => none
  | dep :: rest, k =>
    match lastForced rest k with
    | some t => some t
    | none => if dep.ref = k then some dep.dependsOn else none

/-- All ids the document asks to hang under `k`, in document order. -/
def collectDeps (deps : List Dep) (k : String) : List String :=
  ((deps.filter (fun dep => decide (dep.ref = k))).map (·.dependsOn)).flatten

/-- The `fromId`s of a document's edges, in document order. -/
def refsOf (deps : List Dep) : List String := deps.map (·.ref)

/-- A level entry justified by the BFS discipline: either a root seeded at
level 0, or a node one level below some already-levelled parent that lists
it as a dependency. -/
def GoodItem (g : Graph) (levels : List (String × Nat)) (p : String × Nat) : Prop :=
  (p.1 ∈ rootsOf g ∧ p.2 = 0) ∨
  ∃ q : String × Nat, q ∈ levels ∧ p.2 = q.2 + 1 ∧
    ∃ ds, getA g q.1 = some ds ∧ p.1 ∈ ds

def demoSbomA : Sbom := ⟨[⟨"a", ["b"]⟩], false⟩

def demoSbomB : Sbom := ⟨[⟨"b", ["c"]⟩], false⟩

def demoSbomC : Sbom := ⟨[⟨"c", ["d"]⟩], false⟩

/-- Three successive merges from the initialized state. -/
def demoAfterThree : VisState :=
  uploadSbom (uploadSbom (uploadSbom initState demoSbomA) demoSbomB) demoSbomC

/-- The same state after two backward steps. -/
def demoRewound : VisState :=
  navigateHistoryBackward (navigateHistoryBackward demoAfterThree)

end SbomViz


namespace SbomViz

section AssocLemmas

variable {α β : Type} [DecidableEq α]

theorem getA_setA_self (g : List (α × β)) (k : α) (v : β) :
    getA (setA g k v) k = some v := by
  induction g with
  | nil => simp [setA, getA]
  | cons p rest ih =>
    by_cases h : p.1 = k
    · simp [setA, getA, h]
    · simp [setA, getA, h, ih]

theorem getA_setA_ne (g : List (α × β)) (k v) {j : α} (h : j ≠ k) :
    getA (setA g k v) j = getA g j := by
  induction g with
  | nil => simp [setA, getA, Ne.symm h]
  | cons p rest ih =>
    by_cases hp : p.1 = k
    · subst hp
      simp [setA, getA, Ne.symm h]
    · by_cases hj : p.1 = j
      · simp [setA, getA, hp, hj, h]
      · simp [setA, getA, hp, hj, h, ih]

theorem getA_eq_none_iff (g : List (α × β)) (k : α) :
    getA g k = none ↔ k ∉ g.map (·.1) := by
  induction g with
  | nil => simp [getA]
  | cons p rest ih =>
    by_cases h : p.1 = k
    · simp [getA, h]
    · simp [getA, h, ih, Ne.symm h]

theorem keysOf_setA (g : List (α × β)) (k : α) (v : β) :
    (setA g k v).map (·.1)
      = if k ∈ g.map (·.1) then g.map (·.1) else g.map (·.1) ++ [k] := by
  induction g with
  | nil => simp [setA]
  | cons p rest ih =>
    by_cases h : p.1 = k
    · simp [setA, h]
    · simp only [setA, h, if_false, List.map_cons]
      rw [ih]
      by_cases hm : k ∈ rest.map (·.1)
      · simp [hm, Ne.symm h]
      · simp [hm, Ne.symm h]

end AssocLemmas

end SbomViz

namespace SbomViz

section DedupLemmas

variable {α : Type} [DecidableEq α]

theorem mem_dedupFS {a : α} : ∀ {l : List α}, a ∈ dedupFS l ↔ a ∈ l := by
  intro l
  induction l with
  | nil => simp [dedupFS]
  | cons b rest ih =>
    by_cases h : a = b
    · simp [dedupFS, h]
    · simp [dedupFS, h, ih]

theorem nodup_dedupFS : ∀ (l : List α), (dedupFS l).Nodup := by
  intro l
  induction l with
  | nil => simp [dedupFS]
  | cons b rest ih =>
    rw [dedupFS]
    refine List.Nodup.cons ?_ (List.Nodup.filter _ ih)
    intro hmem
    have := List.of_mem_filter hmem
    simp at this

theorem dedupFS_filter (p : α → Bool) :
    ∀ (l : List α), dedupFS (l.filter p) = (dedupFS l).filter p := by
  intro l
  induction l with
  | nil => simp [dedupFS]
  | cons b rest ih =>
    by_cases h : p b
    · rw [List.filter_cons_of_pos h, dedupFS, dedupFS, ih,
        List.filter_cons_of_pos h, List.filter_comm]
    · rw [List.filter_cons_of_neg (by simpa using h), dedupFS, ih,
        List.filter_cons_of_neg (by simpa using h), List.filter_filter]
      apply List.filter_congr
      intro a _
      by_cases hp : p a
      · have : a ≠ b := fun he => h (he ▸ hp)
        simp [hp, this]
      · simp [hp]

end DedupLemmas

section AddUniqueLemmas

theorem addUnique_append (l ids1 ids2 : List String) :
    addUnique l (ids1 ++ ids2) = addUnique (addUnique l ids1) ids2 :=
  List.foldl_append _ _ _ _

theorem addUnique_eq (ids : List String) :
    ∀ (l : List String),
      addUnique l ids = l ++ dedupFS (ids.filter (fun i => decide (i ∉ l))) := by
  induction ids with
  | nil => intro l; simp [addUnique, dedupFS]
  | cons i rest ih =>
    intro l
    by_cases h : i ∈ l
    · have : addUnique l (i :: rest) = addUnique l rest := by
        simp [addUnique, h]
      rw [this, ih, List.filter_cons_of_neg (by simp [h])]
    · have hstep : addUnique l (i :: rest) = addUnique (l ++ [i]) rest := by
        simp [addUnique, h]
      rw [hstep, ih (l ++ [i]), List.filter_cons_of_pos (by simp [h]), dedupFS]
      have hpred :
          rest.filter (fun b => decide (b ∉ l ++ [i]))
            = (rest.filter (fun b => decide (b ∉ l))).filter (fun b => decide (b ≠ i)) := by
        rw [List.filter_filter]
        apply List.filter_congr
        intro a _
        by_cases ha : a ∈ l
        · simp [ha]
        · by_cases hi : a = i
          · simp [ha, hi]
          · simp [ha, hi]
      rw [hpred, dedupFS_filter]
      simp

theorem prefix_addUnique (l ids : List String) : l <+: addUnique l ids := by
  rw [addUnique_eq]
  exact List.prefix_append _ _

theorem mem_addUnique {a : String} (l ids : List String) :
    a ∈ addUnique l ids ↔ a ∈ l ∨ a ∈ ids := by
  rw [addUnique_eq]
  simp [mem_dedupFS]
  tauto

theorem nodup_addUnique {l : List String} (ids : List String) (h : l.Nodup) :
    (addUnique l ids).Nodup := by
  rw [addUnique_eq]
  refine List.Nodup.append h (nodup_dedupFS _) ?_
  intro a hal had
  have := mem_dedupFS.mp had
  have := List.of_mem_filter this
  simp at this
  exact this hal

theorem addUnique_of_subset {l ids : List String} (h : ∀ i ∈ ids, i ∈ l) :
    addUnique l ids = l := by
  rw [addUnique_eq]
  have : ids.filter (fun i => decide (i ∉ l)) = [] := by
    apply List.filter_eq_nil_iff.mpr
    intro a ha
    simp [h a ha]
  rw [this]
  simp [dedupFS]

end AddUniqueLemmas

end SbomViz

namespace SbomViz

section MergeLemmas

theorem update_cons_regular (g : Graph) (dep : Dep) (rest : List Dep) :
    updateDependencyGraph g ⟨dep :: rest, false⟩
      = updateDependencyGraph
          (setA (if (getA g dep.ref).isSome then g else setA g dep.ref []) dep.ref
            (addUnique ((getA g dep.ref).getD []) dep.dependsOn))
          ⟨rest, false⟩ := by
  simp only [updateDependencyGraph, List.foldl_cons]
  congr 2
  cases h : getA g dep.ref <;> simp [h, getA_setA_self]

theorem update_cons_force (g : Graph) (dep : Dep) (rest : List Dep) :
    updateDependencyGraph g ⟨dep :: rest, true⟩
      = updateDependencyGraph
          (setA (if (getA g dep.ref).isSome then g else setA g dep.ref []) dep.ref
            dep.dependsOn)
          ⟨rest, true⟩ := by
  simp [updateDependencyGraph]

theorem getA_step_self (g : Graph) (r : String) (v : List String) :
    getA (setA (if (getA g r).isSome then g else setA g r []) r v) r = some v :=
  getA_setA_self _ _ _

theorem getA_step_ne (g : Graph) (r : String) (v : List String) {k : String}
    (h : k ≠ r) :
    getA (setA (if (getA g r).isSome then g else setA g r []) r v) k = getA g k := by
  rw [getA_setA_ne _ _ _ h]
  cases hg : getA g r
  · simp [hg, getA_setA_ne _ _ _ h]
  · simp [hg]

theorem collectDeps_cons_self (dep : Dep) (rest : List Dep) :
    collectDeps (dep :: rest) dep.ref = dep.dependsOn ++ collectDeps rest dep.ref := by
  simp [collectDeps]

theorem collectDeps_cons_ne (dep : Dep) (rest : List Dep) {k : String} (h : dep.ref ≠ k) :
    collectDeps (dep :: rest) k = collectDeps rest k := by
  simp [collectDeps, h]

theorem regular_merge_getA (deps : List Dep) :
    ∀ (g : Graph) (k : String),
      getA (updateDependencyGraph g ⟨deps, false⟩) k =
        match getA g k with
        | some old => some (addUnique old (collectDeps deps k))
        | none =>
          if k ∈ refsOf deps then some (addUnique [] (collectDeps deps k)) else none := by
  induction deps with
  | nil =>
    intro g k
    cases h : getA g k with
    | some old => simp [updateDependencyGraph, h, collectDeps, addUnique]
    | none => simp [updateDependencyGraph, h, refsOf]
  | cons dep rest ih =>
    intro g k
    rw [update_cons_regular, ih]
    by_cases hk : k = dep.ref
    · subst hk
      rw [getA_step_self]
      cases h : getA g dep.ref with
      | some old =>
        simp only [Option.getD_some]
        rw [collectDeps_cons_self, addUnique_append]
      | none =>
        simp only [Option.getD_none]
        rw [collectDeps_cons_self, addUnique_append]
        simp [refsOf]
    · rw [getA_step_ne _ _ _ hk]
      cases h : getA g k with
      | some old =>
        rw [collectDeps_cons_ne _ _ (fun he => hk he.symm)]
      | none =>
        rw [collectDeps_cons_ne _ _ (fun he => hk he.symm)]
        simp [refsOf, hk]

theorem force_merge_getA (deps : List Dep) :
    ∀ (g : Graph) (k : String),
      getA (updateDependencyGraph g ⟨deps, true⟩) k =
        match lastForced deps k with
        | some t => some t
        | none => getA g k := by
  induction deps with
  | nil => intro g k; simp [updateDependencyGraph, lastForced]
  | cons dep rest ih =>
    intro g k
    rw [update_cons_force, ih]
    rw [lastForced]
    cases hl : lastForced rest k with
    | some t => rfl
    | none =>
      by_cases hk : k = dep.ref
      · subst hk
        rw [getA_step_self, if_pos rfl]
      · rw [getA_step_ne _ _ _ hk, if_neg (fun he => hk he.symm)]

theorem keysOf_update (deps : List Dep) (fm : Bool) :
    ∀ (g : Graph),
      keysOf (updateDependencyGraph g ⟨deps, fm⟩)
        = keysOf g
            ++ dedupFS ((refsOf deps).filter (fun r => decide (r ∉ keysOf g))) := by
  induction deps with
  | nil => intro g; simp [updateDependencyGraph, refsOf, dedupFS, keysOf]
  | cons dep rest ih =>
    intro g
    have hstep :
        ∀ v : List String,
          keysOf (setA (if (getA g dep.ref).isSome then g else setA g dep.ref [])
              dep.ref v)
            = if dep.ref ∈ keysOf g then keysOf g else keysOf g ++ [dep.ref] := by
      intro v
      cases h : getA g dep.ref with
      | some old =>
        have hmem : dep.ref ∈ keysOf g := by
          by_contra hc
          rw [(getA_eq_none_iff g dep.ref).mpr hc] at h
          exact Option.noConfusion h
        simp only [h, Option.isSome_some, if_true]
        simp only [keysOf] at hmem ⊢
        simp [keysOf_setA, hmem]
      | none =>
        have hmem : dep.ref ∉ keysOf g := by
          intro hc
          rw [getA_eq_none_iff] at h
          exact h hc
        simp only [h, Option.isSome_none, Bool.false_eq_true, if_false]
        simp only [keysOf] at hmem ⊢
        simp [keysOf_setA, hmem]
    have hcons :
        updateDependencyGraph g ⟨dep :: rest, fm⟩
          = updateDependencyGraph
              (setA (if (getA g dep.ref).isSome then g else setA g dep.ref [])
                dep.ref
                (if fm = true then dep.dependsOn
                 else addUnique ((getA g dep.ref).getD []) dep.dependsOn))
              ⟨rest, fm⟩ := by
      cases fm
      · rw [update_cons_regular]; simp
      · rw [update_cons_force]; simp
    rw [hcons, ih, hstep]
    by_cases hm : dep.ref ∈ keysOf g
    · rw [if_pos hm]
      have : refsOf (dep :: rest) = dep.ref :: refsOf rest := rfl
      rw [this, List.filter_cons_of_neg (by simp [hm])]
    · rw [if_neg hm]
      have : refsOf (dep :: rest) = dep.ref :: refsOf rest := rfl
      rw [this, List.filter_cons_of_pos (by simp [hm]), dedupFS]
      have hpred :
          (refsOf rest).filter (fun r => decide (r ∉ keysOf g ++ [dep.ref]))
            = ((refsOf rest).filter (fun r => decide (r ∉ keysOf g))).filter
                (fun r => decide (r ≠ dep.ref)) := by
        rw [List.filter_filter]
        apply List.filter_congr
        intro a _
        by_cases ha : a ∈ keysOf g
        · simp [ha]
        · by_cases hi : a = dep.ref
          · simp [ha, hi]
          · simp [ha, hi]
      rw [hpred, dedupFS_filter]
      simp

end MergeLemmas

end SbomViz

namespace SbomViz

/-- C2: force-mode merge gives every `fromId` named in the document the
`toIds` of its last entry, exactly as given, and leaves every other node's
dependency list unchanged; in particular force-merging `111→[222,999]` into
`{111:[222,333], 222:[444]}` yields `{111:[222,999], 222:[444]}`. -/
theorem forceMerge_replaces_and_preserves :
    (∀ (g : Graph) (deps : List Dep) (k : String),
      getA (updateDependencyGraph g ⟨deps, true⟩) k =
        match lastForced deps k with
        | some t => some t
        | none => getA g k)
    ∧ updateDependencyGraph [("111", ["222", "333"]), ("222", ["444"])]
        ⟨[⟨"111", ["222", "999"]⟩], true⟩
        = [("111", ["222", "999"]), ("222", ["444"])] :=
  ⟨fun g deps k => force_merge_getA deps g k, by decide⟩

/-- C3: regular merge extends each `fromId`'s list with the document's ids
for it, skipping ids already present: the result is the old list followed by
the new ids in first-seen order, so the old list is a prefix and, when it
was duplicate-free, the result still is. -/
theorem regularMerge_appends_unique :
    (∀ (g : Graph) (deps : List Dep) (k : String),
      getA (updateDependencyGraph g ⟨deps, false⟩) k =
        match getA g k with
        | some old => some (addUnique old (collectDeps deps k))
        | none =>
          if k ∈ refsOf deps then some (addUnique [] (collectDeps deps k)) else none)
    ∧ (∀ l ids : List String, l <+: addUnique l ids)
    ∧ (∀ l ids : List String,
        addUnique l ids = l ++ dedupFS (ids.filter (fun i => decide (i ∉ l))))
    ∧ (∀ l ids : List String, l.Nodup → (addUnique l ids).Nodup) :=
  ⟨fun g deps k => regular_merge_getA deps g k, prefix_addUnique,
    fun l ids => addUnique_eq ids l, fun _ ids h => nodup_addUnique ids h⟩

theorem regularMerge_appends_unique_witness :
    (addUnique ["x"] ["y", "x", "y"]).Nodup :=
  regularMerge_appends_unique.2.2.2 ["x"] ["y", "x", "y"] (by decide)

/-- C10: in both modes, merging never removes a key, keeps the pre-existing
keys in their relative order, and appends the document's new `fromId`s after
them in first-occurrence document order. -/
theorem merge_keys_append_only :
    (∀ (g : Graph) (deps : List Dep) (fm : Bool),
      keysOf (updateDependencyGraph g ⟨deps, fm⟩)
        = keysOf g
            ++ dedupFS ((refsOf deps).filter (fun r => decide (r ∉ keysOf g))))
    ∧ (∀ (g : Graph) (deps : List Dep) (fm : Bool) (k : String),
        k ∈ keysOf g → k ∈ keysOf (updateDependencyGraph g ⟨deps, fm⟩)) :=
  ⟨fun g deps fm => keysOf_update deps fm g,
    fun g deps fm k hk => by
      rw [keysOf_update deps fm g]
      exact List.mem_append_left _ hk⟩

theorem merge_keys_append_only_witness :
    "a" ∈ keysOf (updateDependencyGraph [("a", ["b"])] ⟨[⟨"c", ["d"]⟩], false⟩) :=
  merge_keys_append_only.2 [("a", ["b"])] [⟨"c", ["d"]⟩] false "a" (by decide)

end SbomViz

namespace SbomViz

theorem assoc_ext {α β : Type} [DecidableEq α] :
    ∀ {g1 g2 : List (α × β)}, g1.map (·.1) = g2.map (·.1) →
      (g1.map (·.1)).Nodup → (∀ k, getA g1 k = getA g2 k) → g1 = g2 := by
  intro g1
  induction g1 with
  | nil =>
    intro g2 hk _ _
    cases g2 with
    | nil => rfl
    | cons q t => simp at hk
  | cons p rest ih =>
    intro g2 hk hnd hget
    cases g2 with
    | nil => simp at hk
    | cons q t =>
      simp only [List.map_cons, List.cons.injEq] at hk
      have hval : p.2 = q.2 := by
        have := hget p.1
        rw [getA, getA, if_pos rfl, if_pos (hk.1.symm)] at this
        exact Option.some.inj this
      have hnotin : p.1 ∉ rest.map (·.1) := (List.nodup_cons.mp hnd).1
      have htail : rest = t := by
        apply ih hk.2 (List.nodup_cons.mp hnd).2
        intro k
        by_cases hkp : k = p.1
        · subst hkp
          rw [(getA_eq_none_iff rest p.1).mpr hnotin,
            (getA_eq_none_iff t p.1).mpr (hk.2 ▸ hnotin)]
        · have := hget k
          rw [getA, getA, if_neg (fun he => hkp he.symm),
            if_neg (fun he => hkp (hk.1.trans he).symm)] at this
          exact this
      calc p :: rest = (p.1, p.2) :: rest := by rw [Prod.mk.eta]
        _ = (q.1, q.2) :: t := by rw [hval, hk.1, htail]
        _ = q :: t := by rw [Prod.mk.eta]

theorem mem_refs_mem_keys {deps : List Dep} {r : String} (g : Graph) (fm : Bool)
    (h : r ∈ refsOf deps) : r ∈ keysOf (updateDependencyGraph g ⟨deps, fm⟩) := by
  rw [keysOf_update]
  by_cases hg : r ∈ keysOf g
  · exact List.mem_append_left _ hg
  · refine List.mem_append_right _ ?_
    rw [mem_dedupFS, List.mem_filter]
    exact ⟨h, by simpa using hg⟩

theorem nodup_keys_update {g : Graph} (deps : List Dep) (fm : Bool)
    (h : (keysOf g).Nodup) :
    (keysOf (updateDependencyGraph g ⟨deps, fm⟩)).Nodup := by
  rw [keysOf_update]
  refine List.Nodup.append h (nodup_dedupFS _) ?_
  intro a ha hd
  have := List.of_mem_filter (mem_dedupFS.mp hd)
  simp at this
  exact this ha

theorem regular_merge_getA_some {g : Graph} {k : String} {old : List String}
    (deps : List Dep) (h : getA g k = some old) :
    getA (updateDependencyGraph g ⟨deps, false⟩) k
      = some (addUnique old (collectDeps deps k)) := by
  rw [regular_merge_getA, h]

theorem regular_merge_getA_new {g : Graph} {k : String}
    (deps : List Dep) (h : getA g k = none) (hm : k ∈ refsOf deps) :
    getA (updateDependencyGraph g ⟨deps, false⟩) k
      = some (addUnique [] (collectDeps deps k)) := by
  rw [regular_merge_getA, h]
  exact if_pos hm

theorem regular_merge_getA_skip {g : Graph} {k : String}
    (deps : List Dep) (h : getA g k = none) (hm : k ∉ refsOf deps) :
    getA (updateDependencyGraph g ⟨deps, false⟩) k = none := by
  rw [regular_merge_getA, h]
  exact if_neg hm

/-- C9: merging the same non-force document twice in a row (admissible both
times) yields the same graph as merging it once, thanks to list
de-duplication. -/
theorem regularMerge_idempotent (g : Graph) (deps : List Dep)
    (hnodup : (keysOf g).Nodup)
    (hadm1 : (validateSbomForNonForceMode g ⟨deps, false⟩).valid = true)
    (hadm2 : (validateSbomForNonForceMode (updateDependencyGraph g ⟨deps, false⟩)
        ⟨deps, false⟩).valid = true) :
    updateDependencyGraph (updateDependencyGraph g ⟨deps, false⟩) ⟨deps, false⟩
      = updateDependencyGraph g ⟨deps, false⟩ := by
  apply assoc_ext
  · show keysOf _ = keysOf _
    rw [keysOf_update]
    have hnil : (refsOf deps).filter
        (fun r => decide (r ∉ keysOf (updateDependencyGraph g ⟨deps, false⟩))) = [] := by
      apply List.filter_eq_nil_iff.mpr
      intro r hr
      simp [mem_refs_mem_keys g false hr]
    rw [hnil]
    simp [dedupFS]
  · show (keysOf _).Nodup
    exact nodup_keys_update deps false (nodup_keys_update deps false hnodup)
  · intro k
    cases h0 : getA g k with
    | some old =>
      have h1 := regular_merge_getA_some deps h0
      rw [regular_merge_getA_some deps h1, h1]
      rw [addUnique_of_subset
        (fun i hi => (mem_addUnique _ _).mpr (Or.inr hi))]
    | none =>
      by_cases hm : k ∈ refsOf deps
      · have h1 := regular_merge_getA_new deps h0 hm
        rw [regular_merge_getA_some deps h1, h1]
        rw [addUnique_of_subset
          (fun i hi => (mem_addUnique _ _).mpr (Or.inr hi))]
      · have h1 := regular_merge_getA_skip deps h0 hm
        rw [regular_merge_getA_skip deps h1 hm, h1]

theorem regularMerge_idempotent_witness :
    updateDependencyGraph (updateDependencyGraph [] ⟨[⟨"a", ["y"]⟩], false⟩)
        ⟨[⟨"a", ["y"]⟩], false⟩
      = updateDependencyGraph [] ⟨[⟨"a", ["y"]⟩], false⟩ :=
  regularMerge_idempotent [] [⟨"a", ["y"]⟩] (by decide) (by decide) (by decide)

end SbomViz

namespace SbomViz

theorem wouldModify_false_iff {ex nd : List String} (h : nd.Nodup) :
    wouldModify ex nd = false ↔ nd.toFinset = ex.toFinset ∧ nd.length = ex.length := by
  have hbool : wouldModify ex nd = false ↔ (∀ d ∈ nd, d ∈ ex) ∧ ex.length = nd.length := by
    simp [wouldModify]
  rw [hbool]
  constructor
  · rintro ⟨hsub, hlen⟩
    have hsubF : nd.toFinset ⊆ ex.toFinset := by
      intro a ha
      rw [List.mem_toFinset] at ha ⊢
      exact hsub a ha
    have hcard : ex.toFinset.card ≤ nd.toFinset.card := by
      calc ex.toFinset.card ≤ ex.length := ex.toFinset_card_le
        _ = nd.length := hlen
        _ = nd.toFinset.card := (List.toFinset_card_of_nodup h).symm
    exact ⟨Finset.eq_of_subset_of_card_le hsubF hcard, hlen.symm⟩
  · rintro ⟨hset, hlen⟩
    refine ⟨?_, hlen.symm⟩
    intro d hd
    rw [← List.mem_toFinset, ← hset, List.mem_toFinset]
    exact hd

theorem validateLoop_cons_some {g : Graph} {dep : Dep} {rest : List Dep}
    {ex : List String} (hg : getA g dep.ref = some ex) :
    validateLoop g (dep :: rest)
      = if wouldModify ex dep.dependsOn then ⟨false, some (invalidMsgFor dep.ref)⟩
        else validateLoop g rest := by
  rw [validateLoop, hg]

theorem validateLoop_cons_none {g : Graph} {dep : Dep} {rest : List Dep}
    (hg : getA g dep.ref = none) :
    validateLoop g (dep :: rest) = validateLoop g rest := by
  rw [validateLoop, hg]

theorem validateLoop_valid_iff (g : Graph) :
    ∀ (deps : List Dep),
      (validateLoop g deps).valid = true ↔
        ∀ d ∈ deps, ∀ ex, getA g d.ref = some ex →
          wouldModify ex d.dependsOn = false := by
  intro deps
  induction deps with
  | nil => simp [validateLoop]
  | cons dep rest ih =>
    cases hg : getA g dep.ref with
    | some ex =>
      rw [validateLoop_cons_some hg]
      by_cases hw : wouldModify ex dep.dependsOn
      · rw [if_pos hw]
        constructor
        · intro hfalse; exact Bool.noConfusion hfalse
        · intro hall
          have := hall dep (List.mem_cons_self _ _) ex hg
          rw [this] at hw
          exact absurd hw (by decide)
      · rw [if_neg hw, ih]
        constructor
        · intro hall d hd ex2 hex2
          rcases List.mem_cons.mp hd with he | hd2
          · subst he
            rw [hg] at hex2
            cases hex2
            simpa using hw
          · exact hall d hd2 ex2 hex2
        · intro hall d hd ex2 hex2
          exact hall d (List.mem_cons_of_mem _ hd) ex2 hex2
    | none =>
      rw [validateLoop_cons_none hg, ih]
      constructor
      · intro hall d hd ex2 hex2
        rcases List.mem_cons.mp hd with he | hd2
        · subst he
          rw [hg] at hex2
          exact Option.noConfusion hex2
        · exact hall d hd2 ex2 hex2
      · intro hall d hd ex2 hex2
        exact hall d (List.mem_cons_of_mem _ hd) ex2 hex2

theorem validateLoop_invalid (g : Graph) :
    ∀ (deps : List Dep), (validateLoop g deps).valid = false →
      ∃ dep ∈ deps, ∃ ex,
        getA g dep.ref = some ex ∧ wouldModify ex dep.dependsOn = true ∧
        (validateLoop g deps).message = some (invalidMsgFor dep.ref) := by
  intro deps
  induction deps with
  | nil => intro h; exact absurd h (by simp [validateLoop])
  | cons dep rest ih =>
    intro h
    cases hg : getA g dep.ref with
    | some ex =>
      rw [validateLoop_cons_some hg] at h ⊢
      by_cases hw : wouldModify ex dep.dependsOn
      · rw [if_pos hw]
        exact ⟨dep, List.mem_cons_self _ _, ex, hg, hw, rfl⟩
      · rw [if_neg hw] at h ⊢
        obtain ⟨d, hd, ex2, hex2, hw2, hmsg⟩ := ih h
        exact ⟨d, List.mem_cons_of_mem _ hd, ex2, hex2, hw2, hmsg⟩
    | none =>
      rw [validateLoop_cons_none hg] at h ⊢
      obtain ⟨d, hd, ex2, hex2, hw2, hmsg⟩ := ih h
      exact ⟨d, List.mem_cons_of_mem _ hd, ex2, hex2, hw2, hmsg⟩

theorem invalidMsgFor_names (r : String) : r.data <:+: (invalidMsgFor r).data := by
  rw [invalidMsgFor]
  refine ⟨("Cannot upload without Force Mode: This SBOM would modify existing dependencies for node \"").data,
    ("\". Enable Force Mode to allow this modification.").data, ?_⟩
  rw [← String.data_append, ← String.data_append]

end SbomViz

namespace SbomViz

/-- C1: for a non-force document (whose per-edge `toIds` are duplicate-free,
per the document model) and any graph: an empty graph admits anything;
otherwise the document is admissible exactly when, for every edge whose
`fromId` is already a key, `toIds` equals the existing list as a set and in
cardinality; and any rejection carries a message naming the offending
identifier. -/
theorem validate_admissibility (g : Graph) (sbom : Sbom)
    (hnd : ∀ d ∈ sbom.dependencies, d.dependsOn.Nodup) :
    (g = [] → (validateSbomForNonForceMode g sbom).valid = true)
    ∧ ((validateSbomForNonForceMode g sbom).valid = true ↔
        ∀ d ∈ sbom.dependencies, ∀ ex, getA g d.ref = some ex →
          d.dependsOn.toFinset = ex.toFinset ∧ d.dependsOn.length = ex.length)
    ∧ ((validateSbomForNonForceMode g sbom).valid = false →
        ∃ dep ∈ sbom.dependencies, ∃ ex,
          getA g dep.ref = some ex ∧ wouldModify ex dep.dependsOn = true ∧
          (validateSbomForNonForceMode g sbom).message
            = some (invalidMsgFor dep.ref) ∧
          dep.ref.data <:+: (invalidMsgFor dep.ref).data) := by
  by_cases hg : g.length = 0
  · have hgnil : g = [] := List.length_eq_zero.mp hg
    subst hgnil
    refine ⟨fun _ => by simp [validateSbomForNonForceMode], ?_, ?_⟩
    · simp only [validateSbomForNonForceMode, List.length_nil, if_pos rfl]
      constructor
      · intro _ d _ ex hex
        exact absurd hex (by simp [getA])
      · intro _; rfl
    · intro hfalse
      simp [validateSbomForNonForceMode] at hfalse
  · have hv : validateSbomForNonForceMode g sbom = validateLoop g sbom.dependencies := by
      rw [validateSbomForNonForceMode, if_neg hg]
    refine ⟨fun he => absurd (by simp [he]) hg, ?_, ?_⟩
    · rw [hv, validateLoop_valid_iff]
      constructor
      · intro hall d hd ex hex
        exact (wouldModify_false_iff (hnd d hd)).mp (hall d hd ex hex)
      · intro hall d hd ex hex
        exact (wouldModify_false_iff (hnd d hd)).mpr (hall d hd ex hex)
    · rw [hv]
      intro hfalse
      obtain ⟨dep, hd, ex, hex, hw, hmsg⟩ := validateLoop_invalid g _ hfalse
      exact ⟨dep, hd, ex, hex, hw, hmsg, invalidMsgFor_names dep.ref⟩

theorem validate_admissibility_witness :
    (validateSbomForNonForceMode [("111", ["222", "333"]), ("222", ["444"])]
        ⟨[⟨"111", ["222"]⟩], false⟩).valid = true ↔
      ∀ d ∈ [(⟨"111", ["222"]⟩ : Dep)], ∀ ex,
        getA [("111", ["222", "333"]), ("222", ["444"])] d.ref = some ex →
          d.dependsOn.toFinset = ex.toFinset ∧ d.dependsOn.length = ex.length :=
  (validate_admissibility [("111", ["222", "333"]), ("222", ["444"])]
    ⟨[⟨"111", ["222"]⟩], false⟩ (by decide)).2.1

end SbomViz

namespace SbomViz

/-- C8: a non-force upload rejected by validation is a normal returned
value: the result is exactly the untouched state paired with the
`{admissible: false, reason}` outcome, so the graph is unchanged and no
history entry is added. -/
theorem rejectedUpload_leaves_state (s : VisState) (sbom : Sbom)
    (h : (validateSbomForNonForceMode s.dependencyGraph
        { sbom with forceMode := false }).valid = false) :
    processSelectedSbom s sbom false
      = (s, validateSbomForNonForceMode s.dependencyGraph
          { sbom with forceMode := false })
    ∧ (processSelectedSbom s sbom false).2.valid = false := by
  have hmain : processSelectedSbom s sbom false
      = (s, validateSbomForNonForceMode s.dependencyGraph
          { sbom with forceMode := false }) := by
    simp [processSelectedSbom, h]
  exact ⟨hmain, by rw [hmain]; exact h⟩

theorem rejectedUpload_leaves_state_witness :
    processSelectedSbom ⟨[("a", ["x"])], 1, [⟨[], 0⟩], 0, false, none⟩
        ⟨[⟨"a", ["y"]⟩], false⟩ false
      = (⟨[("a", ["x"])], 1, [⟨[], 0⟩], 0, false, none⟩,
          validateSbomForNonForceMode [("a", ["x"])] ⟨[⟨"a", ["y"]⟩], false⟩)
    ∧ (processSelectedSbom ⟨[("a", ["x"])], 1, [⟨[], 0⟩], 0, false, none⟩
        ⟨[⟨"a", ["y"]⟩], false⟩ false).2.valid = false :=
  rejectedUpload_leaves_state ⟨[("a", ["x"])], 1, [⟨[], 0⟩], 0, false, none⟩
    ⟨[⟨"a", ["y"]⟩], false⟩ (by decide)

end SbomViz

namespace SbomViz

/-- C4: `saveHistoryState` snapshots the current graph, truncates the log
after the cursor, appends the entry and moves the cursor to the new tip (on
the states the app reaches: either the viewing flag is set or the cursor is
at the tip); concretely, three merges give 4 entries, and stepping back
twice before a fresh snapshot leaves 3 entries, keeping old positions 0 and
1 and moving the cursor to position 2. -/
theorem snapshot_truncates_then_appends :
    (∀ s : VisState,
      s.viewingHistory = true ∨ s.historyPosition + 1 = s.historyStates.length →
        (saveHistoryState s).historyStates
          = s.historyStates.take (s.historyPosition + 1)
              ++ [⟨s.dependencyGraph, s.uploadedSboms⟩]
        ∧ (saveHistoryState s).historyPosition + 1
            = (saveHistoryState s).historyStates.length)
    ∧ demoAfterThree.historyStates.length = 4
    ∧ (saveHistoryState demoRewound).historyStates.length = 3
    ∧ (saveHistoryState demoRewound).historyStates.take 2
        = demoAfterThree.historyStates.take 2
    ∧ (saveHistoryState demoRewound).historyPosition = 2 := by
  refine ⟨?_, by decide, by decide, by decide, by decide⟩
  intro s h
  by_cases hv : s.viewingHistory
  · constructor
    · simp [saveHistoryState, hv]
    · simp [saveHistoryState, hv]
  · have hp : s.historyPosition + 1 = s.historyStates.length := by
      rcases h with h | h
      · exact absurd h hv
      · exact h
    constructor
    · simp [saveHistoryState, hv, hp]
    · simp [saveHistoryState, hv]

theorem snapshot_truncates_then_appends_witness :
    (saveHistoryState demoRewound).historyStates
      = demoRewound.historyStates.take (demoRewound.historyPosition + 1)
          ++ [⟨demoRewound.dependencyGraph, demoRewound.uploadedSboms⟩]
    ∧ (saveHistoryState demoRewound).historyPosition + 1
        = (saveHistoryState demoRewound).historyStates.length :=
  snapshot_truncates_then_appends.1 demoRewound (Or.inl (by decide))

end SbomViz

namespace SbomViz

/-- C7: from a tip cursor over at least two entries, one step back followed
by one step forward restores the graph to the tip entry's mapping (value
equality), puts the cursor back at the tip and clears the viewing flag. -/
theorem history_roundtrip (s : VisState)
    (htip : s.historyPosition + 1 = s.historyStates.length)
    (hlen : 2 ≤ s.historyStates.length) :
    (navigateHistoryForward (navigateHistoryBackward s)).dependencyGraph
      = (s.historyStates.getD s.historyPosition ⟨[], 0⟩).dependencyGraph
    ∧ (navigateHistoryForward (navigateHistoryBackward s)).historyPosition
        = s.historyPosition
    ∧ (navigateHistoryForward (navigateHistoryBackward s)).viewingHistory = false := by
  have hpos0 : s.historyPosition ≠ 0 := by omega
  have hlt : s.historyPosition - 1 < s.historyStates.length := by omega
  have hb : navigateHistoryBackward s
      = { s with
          historyPosition := s.historyPosition - 1
          viewingHistory := true
          dependencyGraph :=
            (s.historyStates.getD (s.historyPosition - 1) ⟨[], 0⟩).dependencyGraph
          savedCurrentGraph := some s.dependencyGraph } := by
    rw [navigateHistoryBackward, if_neg hpos0, updateHistoryView]
    simp only [if_pos hlt]
    simp
  have hguard : ¬(s.historyStates.length - 1 ≤ s.historyPosition - 1) := by omega
  have hp : s.historyPosition - 1 + 1 = s.historyStates.length - 1 := by omega
  have hlt2 : s.historyPosition - 1 + 1 < s.historyStates.length := by omega
  have hf : navigateHistoryForward (navigateHistoryBackward s)
      = { s with
          historyPosition := s.historyPosition - 1 + 1
          viewingHistory := false
          dependencyGraph :=
            (s.historyStates.getD (s.historyPosition - 1 + 1) ⟨[], 0⟩).dependencyGraph
          savedCurrentGraph := none } := by
    rw [hb, navigateHistoryForward]
    simp only [if_neg hguard, if_pos hp, updateHistoryView, if_pos hlt2]
    simp
  rw [hf]
  have hpp : s.historyPosition - 1 + 1 = s.historyPosition := by omega
  rw [hpp]
  exact ⟨rfl, rfl, rfl⟩

theorem history_roundtrip_witness :
    (navigateHistoryForward (navigateHistoryBackward
        ⟨[("a", ["b"])], 1, [⟨[], 0⟩, ⟨[("a", ["b"])], 1⟩], 1, false, none⟩)).dependencyGraph
      = (([⟨[], 0⟩, ⟨[("a", ["b"])], 1⟩] : List HEntry).getD 1 ⟨[], 0⟩).dependencyGraph
    ∧ (navigateHistoryForward (navigateHistoryBackward
        ⟨[("a", ["b"])], 1, [⟨[], 0⟩, ⟨[("a", ["b"])], 1⟩], 1, false, none⟩)).historyPosition = 1
    ∧ (navigateHistoryForward (navigateHistoryBackward
        ⟨[("a", ["b"])], 1, [⟨[], 0⟩, ⟨[("a", ["b"])], 1⟩], 1, false, none⟩)).viewingHistory = false :=
  history_roundtrip ⟨[("a", ["b"])], 1, [⟨[], 0⟩, ⟨[("a", ["b"])], 1⟩], 1, false, none⟩
    (by decide) (by decide)

end SbomViz

namespace SbomViz

theorem GoodItem.mono {g : Graph} {levels levels' : List (String × Nat)}
    (hsub : ∀ x ∈ levels, x ∈ levels') {p : String × Nat}
    (h : GoodItem g levels p) : GoodItem g levels' p := by
  rcases h with h | ⟨q, hq, hl, ds, hds, hmem⟩
  · exact Or.inl h
  · exact Or.inr ⟨q, hsub q hq, hl, ds, hds, hmem⟩

theorem getA_of_mem_nodup {α β : Type} [DecidableEq α] :
    ∀ {g : List (α × β)}, (g.map (·.1)).Nodup →
      ∀ {k : α} {v : β}, (k, v) ∈ g → getA g k = some v := by
  intro g
  induction g with
  | nil => intro _ k v h; exact absurd h (List.not_mem_nil _)
  | cons p rest ih =>
    intro hnd k v h
    rcases List.mem_cons.mp h with he | hm
    · subst he
      rw [getA, if_pos rfl]
    · have hk : p.1 ≠ k := by
        intro he
        have hkm : k ∈ rest.map (·.1) := List.mem_map_of_mem _ hm
        rw [← he] at hkm
        exact (List.nodup_cons.mp hnd).1 hkm
      rw [getA, if_neg hk]
      exact ih (List.nodup_cons.mp hnd).2 hm

theorem getA_append_of_some {α β : Type} [DecidableEq α] :
    ∀ {g t : List (α × β)} {k : α} {v : β},
      getA g k = some v → getA (g ++ t) k = some v := by
  intro g
  induction g with
  | nil => intro t k v h; exact absurd h (by simp [getA])
  | cons p rest ih =>
    intro t k v h
    rw [getA] at h
    by_cases hp : p.1 = k
    · rw [List.cons_append, getA, if_pos hp]
      rwa [if_pos hp] at h
    · rw [List.cons_append, getA, if_neg hp]
      rw [if_neg hp] at h
      exact ih h

theorem getA_append_of_none {α β : Type} [DecidableEq α] :
    ∀ {g : List (α × β)} (t : List (α × β)) {k : α},
      getA g k = none → getA (g ++ t) k = getA t k := by
  intro g
  induction g with
  | nil => intro t k _; rfl
  | cons p rest ih =>
    intro t k h
    rw [getA] at h
    by_cases hp : p.1 = k
    · rw [if_pos hp] at h; exact Option.noConfusion h
    · rw [if_neg hp] at h
      rw [List.cons_append, getA, if_neg hp]
      exact ih t h

theorem getA_map_zero : ∀ (xs : List String) {k : String}, k ∈ xs →
    getA (xs.map (fun x => (x, (0 : Nat)))) k = some 0 := by
  intro xs
  induction xs with
  | nil => intro k h; exact absurd h (List.not_mem_nil _)
  | cons x rest ih =>
    intro k h
    rw [List.map_cons, getA]
    by_cases hx : x = k
    · rw [if_pos hx]
    · rw [if_neg hx]
      exact ih (by rcases List.mem_cons.mp h with he | hm; exact absurd he.symm hx; exact hm)

end SbomViz

namespace SbomViz

theorem bfsLoop_good (g : Graph) :
    ∀ (queue : List (String × Nat)) (visited : List String)
      (levels : List (String × Nat)),
      (∀ p ∈ queue, GoodItem g levels p) →
      (∀ p ∈ levels, GoodItem g levels p) →
      levels.map (·.1) = visited →
      visited.Nodup →
      (∀ p ∈ bfsLoop g queue visited levels,
        GoodItem g (bfsLoop g queue visited levels) p)
      ∧ ((bfsLoop g queue visited levels).map (·.1)).Nodup := by
  intro queue visited levels
  induction queue, visited, levels using bfsLoop.induct g with
  | case1 visited levels =>
    intro _ hlev hmap hnd
    rw [bfsLoop]
    exact ⟨hlev, hmap ▸ hnd⟩
  | case2 n l rest visited levels hvis ih =>
    intro hq hlev hmap hnd
    rw [bfsLoop, if_pos hvis]
    exact ih (fun p hp => hq p (List.mem_cons_of_mem _ hp)) hlev hmap hnd
  | case3 n l rest visited levels hvis deps0 newItems0 ih =>
    intro hq hlev hmap hnd
    rw [bfsLoop, if_neg hvis]
    have hmono : ∀ x ∈ levels, x ∈ levels ++ [(n, l)] :=
      fun x hx => List.mem_append_left _ hx
    refine ih ?_ ?_ ?_ ?_
    · intro p hp
      rcases List.mem_append.mp hp with hrest | hnew
      · exact GoodItem.mono hmono (hq p (List.mem_cons_of_mem _ hrest))
      · rcases List.mem_map.mp hnew with ⟨d, hd, he⟩
        subst he
        have hdd : d ∈ (getA g n).getD [] := List.mem_of_mem_filter hd
        cases hds : getA g n with
        | none => rw [hds] at hdd; exact absurd hdd (List.not_mem_nil _)
        | some ds =>
          rw [hds] at hdd
          exact Or.inr ⟨(n, l), List.mem_append_right _ (List.mem_singleton_self _),
            rfl, ds, hds, hdd⟩
    · intro p hp
      rcases List.mem_append.mp hp with hold | hnew
      · exact GoodItem.mono hmono (hlev p hold)
      · rw [List.mem_singleton] at hnew
        subst hnew
        exact GoodItem.mono hmono (hq (n, l) (List.mem_cons_self _ _))
    · rw [List.map_append, hmap]
      rfl
    · rw [List.nodup_append]
      exact ⟨hnd, List.nodup_singleton _, by simpa using hvis⟩

end SbomViz

namespace SbomViz

theorem bfsLoop_mem_levels (g : Graph) :
    ∀ (queue : List (String × Nat)) (visited : List String)
      (levels : List (String × Nat)),
      ∀ p ∈ levels, p ∈ bfsLoop g queue visited levels := by
  intro queue visited levels
  induction queue, visited, levels using bfsLoop.induct g with
  | case1 visited levels =>
    intro p hp
    rw [bfsLoop]
    exact hp
  | case2 m lm rest visited levels hvis ih =>
    intro p hp
    rw [bfsLoop, if_pos hvis]
    exact ih p hp
  | case3 m lm rest visited levels hvis deps0 newItems0 ih =>
    intro p hp
    rw [bfsLoop, if_neg hvis]
    exact ih p (List.mem_append_left _ hp)

theorem bfsLoop_keys_nodup (g : Graph) :
    ∀ (queue : List (String × Nat)) (visited : List String)
      (levels : List (String × Nat)),
      levels.map (·.1) = visited → visited.Nodup →
      ((bfsLoop g queue visited levels).map (·.1)).Nodup := by
  intro queue visited levels
  induction queue, visited, levels using bfsLoop.induct g with
  | case1 visited levels =>
    intro hmap hnd
    rw [bfsLoop]
    exact hmap ▸ hnd
  | case2 m lm rest visited levels hvis ih =>
    intro hmap hnd
    rw [bfsLoop, if_pos hvis]
    exact ih hmap hnd
  | case3 m lm rest visited levels hvis deps0 newItems0 ih =>
    intro hmap hnd
    rw [bfsLoop, if_neg hvis]
    refine ih ?_ ?_
    · rw [List.map_append, hmap]
      rfl
    · rw [List.nodup_append]
      exact ⟨hnd, List.nodup_singleton _, by simpa using hvis⟩

theorem bfsLoop_first_arrival (g : Graph) :
    ∀ (queue : List (String × Nat)) (visited : List String)
      (levels : List (String × Nat)),
      ∀ (queue1 queue2 : List (String × Nat)) (n : String) (l : Nat),
        queue = queue1 ++ (n, l) :: queue2 →
        n ∉ visited → (∀ lvl, (n, lvl) ∉ queue1) →
        levels.map (·.1) = visited → visited.Nodup →
        getA (bfsLoop g queue visited levels) n = some l := by
  intro queue visited levels
  induction queue, visited, levels using bfsLoop.induct g with
  | case1 visited levels =>
    intro queue1 queue2 n l he _ _ _ _
    exact absurd he.symm (List.append_ne_nil_of_right_ne_nil _ (List.cons_ne_nil _ _))
  | case2 m lm rest visited levels hvis ih =>
    intro queue1 queue2 n l he hnvis hq1 hmap hnd
    cases queue1 with
    | nil =>
      simp only [List.nil_append, List.cons.injEq, Prod.mk.injEq] at he
      exact absurd (he.1.1 ▸ hvis) hnvis
    | cons q queue1t =>
      simp only [List.cons_append, List.cons.injEq] at he
      rw [bfsLoop, if_pos hvis]
      exact ih queue1t queue2 n l he.2 hnvis
        (fun lvl hc => hq1 lvl (List.mem_cons_of_mem _ hc)) hmap hnd
  | case3 m lm rest visited levels hvis deps0 newItems0 ih =>
    intro queue1 queue2 n l he hnvis hq1 hmap hnd
    cases queue1 with
    | nil =>
      simp only [List.nil_append, List.cons.injEq, Prod.mk.injEq] at he
      obtain ⟨⟨hm, hl⟩, hrest⟩ := he
      rw [← hm, ← hl]
      rw [bfsLoop, if_neg hvis]
      have hmem : (m, lm) ∈ bfsLoop g (rest ++ newItems0) (visited ++ [m])
          (levels ++ [(m, lm)]) :=
        bfsLoop_mem_levels g _ _ _ (m, lm)
          (List.mem_append_right _ (List.mem_singleton_self _))
      have hnodup : ((bfsLoop g (rest ++ newItems0) (visited ++ [m])
          (levels ++ [(m, lm)])).map (·.1)).Nodup := by
        refine bfsLoop_keys_nodup g _ _ _ ?_ ?_
        · rw [List.map_append, hmap]
          rfl
        · rw [List.nodup_append]
          exact ⟨hnd, List.nodup_singleton _, by simpa using hvis⟩
      exact getA_of_mem_nodup hnodup hmem
    | cons q queue1t =>
      simp only [List.cons_append, List.cons.injEq] at he
      obtain ⟨hq, hrest⟩ := he
      have hmn : m ≠ n := by
        intro hc
        subst hc
        exact hq1 lm (by rw [← hq]; exact List.mem_cons_self _ _)
      rw [bfsLoop, if_neg hvis]
      refine ih queue1t (queue2 ++ newItems0) n l ?_ ?_ ?_ ?_ ?_
      · rw [hrest, List.append_assoc, List.cons_append]
      · intro hc
        rcases List.mem_append.mp hc with h1 | h2
        · exact hnvis h1
        · rw [List.mem_singleton] at h2
          exact hmn h2.symm
      · exact fun lvl hc => hq1 lvl (List.mem_cons_of_mem _ hc)
      · rw [List.map_append, hmap]
        rfl
      · rw [List.nodup_append]
        exact ⟨hnd, List.nodup_singleton _, by simpa using hvis⟩

theorem bfsLevels_good (g : Graph) :
    (∀ p ∈ bfsLevels g, GoodItem g (bfsLevels g) p)
    ∧ ((bfsLevels g).map (·.1)).Nodup := by
  apply bfsLoop_good
  · intro p hp
    rcases List.mem_map.mp hp with ⟨r, hr, he⟩
    subst he
    exact Or.inl ⟨hr, rfl⟩
  · intro p hp
    exact absurd hp (List.not_mem_nil _)
  · rfl
  · exact List.nodup_nil

/-- C5 (amended): the layout's level assignment seeds a multi-source BFS
with all roots at level 0, gives every other visited node a level one more
than a parent that lists it, visits each node at most once with ties among
multiple parents broken by queue order (an unvisited node receives the
level of its earliest pending queue entry), and defaults every key the BFS
never reached to level 0, while a non-key node the BFS never reached gets
no level entry at all; unreached nodes can exist even when the graph has
roots (any node unreachable from all of them). -/
theorem levels_bfs_spec :
    (∀ (g : Graph) (n : String) (l : Nat),
      getA (bfsLevels g) n = some l →
        (n ∈ rootsOf g ∧ l = 0) ∨
        ∃ p lp, getA (bfsLevels g) p = some lp ∧ l = lp + 1 ∧
          ∃ ds, getA g p = some ds ∧ n ∈ ds)
    ∧ (∀ g : Graph, ((bfsLevels g).map (·.1)).Nodup)
    ∧ (∀ (g : Graph) (queue1 queue2 : List (String × Nat))
        (visited : List String) (levels : List (String × Nat))
        (n : String) (l : Nat),
        n ∉ visited → (∀ lvl, (n, lvl) ∉ queue1) →
        levels.map (·.1) = visited → visited.Nodup →
        getA (bfsLoop g (queue1 ++ (n, l) :: queue2) visited levels) n = some l)
    ∧ (∀ (g : Graph) (k : String), k ∈ keysOf g →
        ∃ l, getA (calculateNodeLevels g) k = some l)
    ∧ (∀ (g : Graph) (k : String), k ∈ keysOf g →
        getA (bfsLevels g) k = none →
        getA (calculateNodeLevels g) k = some 0)
    ∧ (∀ (g : Graph) (n : String), n ∉ keysOf g →
        getA (bfsLevels g) n = none →
        getA (calculateNodeLevels g) n = none) := by
  have hbase := bfsLevels_good
  have hcalc : ∀ g : Graph,
      calculateNodeLevels g
        = bfsLevels g
          ++ ((keysOf g).filter
              (fun k => !((bfsLevels g).map (·.1)).contains k)).map
            (fun k => (k, 0)) := fun g => rfl
  have hdefault : ∀ (g : Graph) (k : String), k ∈ keysOf g →
      getA (bfsLevels g) k = none →
      getA (calculateNodeLevels g) k = some 0 := by
    intro g k hk h
    rw [hcalc g, getA_append_of_none _ h]
    apply getA_map_zero
    rw [List.mem_filter]
    refine ⟨hk, ?_⟩
    rw [getA_eq_none_iff] at h
    simpa using h
  refine ⟨?_, fun g => (hbase g).2, ?_, ?_, hdefault, ?_⟩
  · intro g n l h
    rcases (hbase g).1 _ (getA_mem h) with hroot | ⟨q, hq, hl, ds, hds, hmem⟩
    · exact Or.inl hroot
    · refine Or.inr ⟨q.1, q.2, ?_, hl, ds, hds, hmem⟩
      exact getA_of_mem_nodup (hbase g).2 (by rwa [Prod.mk.eta])
  · intro g queue1 queue2 visited levels n l hnvis hq1 hmap hnd
    exact bfsLoop_first_arrival g _ visited levels queue1 queue2 n l rfl
      hnvis hq1 hmap hnd
  · intro g k hk
    cases h : getA (bfsLevels g) k with
    | some l =>
      exact ⟨l, by rw [hcalc g]; exact getA_append_of_some h⟩
    | none =>
      exact ⟨0, hdefault g k hk h⟩
  · intro g n hnk h
    rw [hcalc g, getA_append_of_none _ h, getA_eq_none_iff]
    intro hc
    rw [List.map_map] at hc
    rcases List.mem_map.mp hc with ⟨x, hx, he⟩
    have hxk := List.mem_of_mem_filter hx
    rw [show ((fun p : String × Nat => p.1) ∘ fun k => (k, (0 : Nat))) x = x
      from rfl] at he
    exact hnk (he ▸ hxk)

theorem levels_bfs_spec_witness :
    getA (calculateNodeLevels [("r", ["x"]), ("a", ["b"]), ("b", ["a"])]) "a"
      = some 0
    ∧ getA (bfsLoop [] [("p", 5), ("q", 7), ("q", 9)] [] []) "q" = some 7 :=
  ⟨levels_bfs_spec.2.2.2.2.1 [("r", ["x"]), ("a", ["b"]), ("b", ["a"])] "a"
      (by decide)
      (by simp [bfsLevels, bfsLoop, rootsOf, keysOf, valuesJoin, getA]),
    levels_bfs_spec.2.2.1 [] [("p", 5)] [("q", 9)] [] [] "q" 7 (by decide)
      (by intro lvl h; simp at h) rfl (by decide)⟩

/-- C5, as stated, is false on two counts: in `{r:[x], a:[b], b:[a]}` the
graph has the root `r`, yet key `a` is never reached by the BFS and is
defaulted to level 0; and in `{r:[x], a:[b], b:[a,leaf]}` the node `leaf`
is part of the graph and never reached, yet it is not assigned level 0 --
it receives no level at all, because the defaulting pass covers keys only. -/
theorem levels_default_despite_roots :
    rootsOf [("r", ["x"]), ("a", ["b"]), ("b", ["a"])] = ["r"]
    ∧ getA (bfsLevels [("r", ["x"]), ("a", ["b"]), ("b", ["a"])]) "a" = none
    ∧ getA (calculateNodeLevels [("r", ["x"]), ("a", ["b"]), ("b", ["a"])]) "a"
        = some 0
    ∧ rootsOf [("r", ["x"]), ("a", ["b"]), ("b", ["a", "leaf"])] = ["r"]
    ∧ "leaf" ∈ valuesJoin [("r", ["x"]), ("a", ["b"]), ("b", ["a", "leaf"])]
    ∧ getA (bfsLevels [("r", ["x"]), ("a", ["b"]), ("b", ["a", "leaf"])]) "leaf"
        = none
    ∧ getA (calculateNodeLevels
        [("r", ["x"]), ("a", ["b"]), ("b", ["a", "leaf"])]) "leaf" = none := by
  refine ⟨by decide, ?_, ?_, by decide, by decide, ?_, ?_⟩
  · simp [bfsLevels, bfsLoop, rootsOf, keysOf, valuesJoin, getA]
  · simp [calculateNodeLevels, bfsLevels, bfsLoop, rootsOf, keysOf, valuesJoin, getA]
  · simp [bfsLevels, bfsLoop, rootsOf, keysOf, valuesJoin, getA]
  · simp [calculateNodeLevels, bfsLevels, bfsLoop, rootsOf, keysOf, valuesJoin, getA]

end SbomViz

namespace SbomViz

theorem getA_foldl_setA_notmem {β : Type} (f : Nat × String → β) :
    ∀ (ws : List (Nat × String)) (m : List (String × β)) (k : String),
      k ∉ ws.map (·.2) →
      getA (ws.foldl (fun m p => setA m p.2 (f p)) m) k = getA m k := by
  intro ws
  induction ws with
  | nil => intro m k _; rfl
  | cons q rest ih =>
    intro m k h
    rw [List.map_cons, List.mem_cons] at h
    push_neg at h
    rw [List.foldl_cons, ih _ _ h.2, getA_setA_ne _ _ _ h.1]

theorem getA_foldl_setA_mem {β : Type} (f : Nat × String → β) :
    ∀ (ws : List (Nat × String)) (m : List (String × β)) (q : Nat × String),
      (ws.map (·.2)).Nodup → q ∈ ws →
      getA (ws.foldl (fun m p => setA m p.2 (f p)) m) q.2 = some (f q) := by
  intro ws
  induction ws with
  | nil => intro m q _ h; exact absurd h (List.not_mem_nil _)
  | cons w rest ih =>
    intro m q hnd hq
    rw [List.map_cons] at hnd
    rcases List.mem_cons.mp hq with he | hm
    · subst he
      rw [List.foldl_cons,
        getA_foldl_setA_notmem f rest _ _ (List.nodup_cons.mp hnd).1,
        getA_setA_self]
    · rw [List.foldl_cons]
      exact ih _ q (List.nodup_cons.mp hnd).2 hm

theorem getA_placeLevel_notmem {w lh : ℚ} {m : List (String × ℚ × ℚ)}
    {l : Nat} {ns : List String} {k : String} (h : k ∉ ns) :
    getA (placeLevel w lh m l ns) k = getA m k := by
  rw [placeLevel]
  exact getA_foldl_setA_notmem _ _ _ _ (by rwa [List.enum_map_snd])

theorem getA_placeLevel_mem {w lh : ℚ} {m : List (String × ℚ × ℚ)}
    {l : Nat} {ns : List String} (hnd : ns.Nodup) {i : Nat} {k : String}
    (h : ns[i]? = some k) :
    getA (placeLevel w lh m l ns) k
      = some (50 + ((i : ℚ) + 1) * (w / ((ns.length : ℚ) + 1)),
          50 + (l : ℚ) * lh) := by
  rw [placeLevel]
  have hq : ((i, k) : Nat × String) ∈ ns.enum := by
    rw [List.mem_enum_iff_getElem?]
    exact h
  exact getA_foldl_setA_mem _ _ _ (i, k) (by rwa [List.enum_map_snd]) hq

end SbomViz

namespace SbomViz

theorem getA_fold_groups_notmem (w lh : ℚ) :
    ∀ (gs : List (Nat × List String)) (m : List (String × ℚ × ℚ)) (k : String),
      k ∉ (gs.map (·.2)).flatten →
      getA (gs.foldl (fun m p => placeLevel w lh m p.1 p.2) m) k = getA m k := by
  intro gs
  induction gs with
  | nil => intro m k _; rfl
  | cons q rest ih =>
    intro m k h
    rw [List.map_cons, List.flatten_cons, List.mem_append] at h
    push_neg at h
    rw [List.foldl_cons, ih _ _ h.2, getA_placeLevel_notmem h.1]

theorem getA_fold_groups_mem (w lh : ℚ) :
    ∀ (gs : List (Nat × List String)) (m : List (String × ℚ × ℚ))
      (l : Nat) (ns : List String) (i : Nat) (k : String),
      ((gs.map (·.2)).flatten).Nodup →
      (l, ns) ∈ gs → ns[i]? = some k →
      getA (gs.foldl (fun m p => placeLevel w lh m p.1 p.2) m) k
        = some (50 + ((i : ℚ) + 1) * (w / ((ns.length : ℚ) + 1)),
            50 + (l : ℚ) * lh) := by
  intro gs
  induction gs with
  | nil => intro m l ns i k _ h _; exact absurd h (List.not_mem_nil _)
  | cons q rest ih =>
    intro m l ns i k hnd hmem hidx
    rw [List.map_cons, List.flatten_cons] at hnd
    have hnd3 := List.nodup_append.mp hnd
    have hk : k ∈ ns := List.getElem?_mem hidx
    rcases List.mem_cons.mp hmem with he | hm
    · have hq2 : q.2 = ns := by rw [← he]
      have hknotrest : k ∉ (rest.map (·.2)).flatten := by
        intro hc
        exact hnd3.2.2 (hq2 ▸ hk) hc
      rw [List.foldl_cons, getA_fold_groups_notmem w lh rest _ _ hknotrest]
      have hql : q.1 = l := by rw [← he]
      rw [← hq2] at hidx
      rw [← hq2, ← hql]
      exact getA_placeLevel_mem hnd3.1 hidx
    · have hkrest : k ∈ (rest.map (·.2)).flatten := by
        rw [List.mem_flatten]
        exact ⟨ns, List.mem_map_of_mem _ hm, hk⟩
      have hknq : k ∉ q.2 := fun hc => hnd3.2.2 hc hkrest
      rw [List.foldl_cons]
      exact ih _ l ns i k hnd3.2.1 hm hidx

theorem joinNodes_setA :
    ∀ (acc : List (Nat × List String)) (lv : Nat) (n : String),
      List.Perm
        (((setA acc lv (((getA acc lv).getD []) ++ [n])).map (·.2)).flatten)
        (((acc.map (·.2)).flatten) ++ [n]) := by
  intro acc
  induction acc with
  | nil => intro lv n; simp [setA, getA]
  | cons q rest ih =>
    intro lv n
    by_cases h : q.1 = lv
    · rw [setA, if_pos h, getA, if_pos h]
      simp only [Option.getD_some, List.map_cons, List.flatten_cons]
      rw [List.append_assoc q.2 [n], List.append_assoc q.2]
      exact List.Perm.append_left q.2 (List.perm_append_comm)
    · rw [setA, if_neg h, getA, if_neg h]
      simp only [List.map_cons, List.flatten_cons]
      refine List.Perm.trans (List.Perm.append_left q.2 (ih lv n)) ?_
      rw [← List.append_assoc]

theorem groupByLevel_join_perm :
    ∀ (ls : List (String × Nat)) (acc : List (Nat × List String)),
      List.Perm
        (((ls.foldl (fun acc p => setA acc p.2 (((getA acc p.2).getD []) ++ [p.1]))
            acc).map (·.2)).flatten)
        (((acc.map (·.2)).flatten) ++ ls.map (·.1)) := by
  intro ls
  induction ls with
  | nil => intro acc; simp
  | cons p rest ih =>
    intro acc
    rw [List.foldl_cons]
    refine List.Perm.trans (ih _) ?_
    refine List.Perm.trans
      (List.Perm.append_right _ (joinNodes_setA acc p.2 p.1)) ?_
    rw [List.append_assoc, List.map_cons]
    exact List.Perm.refl _

end SbomViz

namespace SbomViz

theorem nodup_keys_levels (g : Graph) (h : (keysOf g).Nodup) :
    ((calculateNodeLevels g).map (·.1)).Nodup := by
  have hdef : calculateNodeLevels g
      = bfsLevels g
        ++ ((keysOf g).filter
            (fun k => !((bfsLevels g).map (·.1)).contains k)).map
          (fun k => (k, 0)) := rfl
  rw [hdef, List.map_append, List.nodup_append]
  have hcomp : ((fun x : String × Nat => x.1) ∘ fun k => (k, (0 : Nat))) = id := rfl
  refine ⟨(bfsLevels_good g).2, ?_, ?_⟩
  · rw [List.map_map, hcomp, List.map_id]
    exact h.filter _
  · intro x hx hd
    rw [List.map_map, hcomp, List.map_id] at hd
    have hfil := List.of_mem_filter hd
    simp at hfil
    rcases List.mem_map.mp hx with ⟨p, hp, he⟩
    exact hfil p.2 (by rw [← he, Prod.mk.eta]; exact hp)

/-- C6: coordinate assignment groups the level map by level; the node at
index `i` (0-based) of a level's `n` nodes lands at
`x = 50 + (i+1)·((W-100)/(n+1))` and `y = 50 + level·((H-100)/(maxLevel+1))`;
on the chain `A→B→C` the levels are 0, 1, 2 and, with a 300-wide viewport,
every node sits at `x = 150`. -/
theorem layout_positions :
    (∀ (g : Graph) (W H : ℚ) (l : Nat) (ns : List String) (i : Nat) (k : String),
      (keysOf g).Nodup →
      (l, ns) ∈ groupByLevel (calculateNodeLevels g) →
      ns[i]? = some k →
      getA (calculateNodePositions g W H) k
        = some (50 + ((i : ℚ) + 1) * ((W - 100) / ((ns.length : ℚ) + 1)),
            50 + (l : ℚ)
              * ((H - 100) / ((maxLevelOf (calculateNodeLevels g) : ℚ) + 1))))
    ∧ getA (calculateNodeLevels [("A", ["B"]), ("B", ["C"])]) "A" = some 0
    ∧ getA (calculateNodeLevels [("A", ["B"]), ("B", ["C"])]) "B" = some 1
    ∧ getA (calculateNodeLevels [("A", ["B"]), ("B", ["C"])]) "C" = some 2
    ∧ getA (calculateNodePositions [("A", ["B"]), ("B", ["C"])] 300 300) "A"
        = some (150, 50)
    ∧ getA (calculateNodePositions [("A", ["B"]), ("B", ["C"])] 300 300) "B"
        = some (150, 350 / 3)
    ∧ getA (calculateNodePositions [("A", ["B"]), ("B", ["C"])] 300 300) "C"
        = some (150, 550 / 3) := by
  refine ⟨?_, ?_, ?_, ?_, ?_, ?_, ?_⟩
  · intro g W H l ns i k hnd hgroup hidx
    have hjnd : (((groupByLevel (calculateNodeLevels g)).map (·.2)).flatten).Nodup := by
      have hperm := groupByLevel_join_perm (calculateNodeLevels g) []
      refine (List.Perm.nodup_iff hperm).mpr ?_
      simpa using nodup_keys_levels g hnd
    exact getA_fold_groups_mem _ _ _ _ l ns i k hjnd hgroup hidx
  · simp [calculateNodeLevels, bfsLevels, bfsLoop, rootsOf, keysOf, valuesJoin, getA]
  · simp [calculateNodeLevels, bfsLevels, bfsLoop, rootsOf, keysOf, valuesJoin, getA]
  · simp [calculateNodeLevels, bfsLevels, bfsLoop, rootsOf, keysOf, valuesJoin, getA]
  · simp [calculateNodePositions, calculateNodeLevels, bfsLevels, bfsLoop, rootsOf,
      keysOf, valuesJoin, getA, groupByLevel, maxLevelOf, placeLevel, setA]
    norm_num
  · simp [calculateNodePositions, calculateNodeLevels, bfsLevels, bfsLoop, rootsOf,
      keysOf, valuesJoin, getA, groupByLevel, maxLevelOf, placeLevel, setA]
    norm_num
  · simp [calculateNodePositions, calculateNodeLevels, bfsLevels, bfsLoop, rootsOf,
      keysOf, valuesJoin, getA, groupByLevel, maxLevelOf, placeLevel, setA]
    norm_num

theorem layout_positions_witness :
    getA (calculateNodePositions [("A", ["B"]), ("B", ["C"])] 300 300) "B"
      = some (50 + ((0 : ℚ) + 1) * ((300 - 100) / (((["B"] : List String).length : ℚ) + 1)),
          50 + ((1 : Nat) : ℚ)
            * ((300 - 100)
              / ((maxLevelOf (calculateNodeLevels [("A", ["B"]), ("B", ["C"])]) : ℚ) + 1))) :=
  layout_positions.1 [("A", ["B"]), ("B", ["C"])] 300 300 1 ["B"] 0 "B" (by decide)
    (by simp [groupByLevel, calculateNodeLevels, bfsLevels, bfsLoop, rootsOf, keysOf,
      valuesJoin, getA, setA])
    (by decide)

end SbomViz

namespace SbomViz

-- Sanity checks on concrete inputs (spec Examples 1-3).
example :
    updateDependencyGraph [] ⟨[⟨"111", ["222", "333"]⟩, ⟨"222", ["444"]⟩], false⟩
      = [("111", ["222", "333"]), ("222", ["444"])] := by decide

example :
    (validateSbomForNonForceMode [("111", ["222", "333"]), ("222", ["444"])]
      ⟨[⟨"111", ["222"]⟩], false⟩).valid = false := by decide

example :
    updateDependencyGraph [("111", ["222", "333"]), ("222", ["444"])]
      ⟨[⟨"111", ["222", "999"]⟩], true⟩
      = [("111", ["222", "999"]), ("222", ["444"])] := by decide

-- History sanity: three merges give 4 entries; two steps back plus a new
-- snapshot leave 3 entries.
example :
    (uploadSbom (uploadSbom (uploadSbom initState ⟨[⟨"a", ["b"]⟩], false⟩)
        ⟨[⟨"b", ["c"]⟩], false⟩) ⟨[⟨"c", ["d"]⟩], false⟩).historyStates.length
      = 4 := by decide

example :
    (saveHistoryState (navigateHistoryBackward (navigateHistoryBackward
      (uploadSbom (uploadSbom (uploadSbom initState ⟨[⟨"a", ["b"]⟩], false⟩)
        ⟨[⟨"b", ["c"]⟩], false⟩) ⟨[⟨"c", ["d"]⟩], false⟩)))).historyStates.length
      = 3 := by decide

end SbomViz
